import Mathlib

/-!
Verification of the mycelium graph-resilience algorithms
(`mycelium_algorithm.py`, class `MyceliumAlgorithms`).

The Python code operates on an attributed undirected NetworkX graph.  We
embed such a graph shallowly: node keys are natural numbers, attribute
values are rationals (the Python code computes with real arithmetic;
rationals make every step exact and decidable), missing attributes are
`none`.  Edge attributes in NetworkX are shared between the two
orientations of an undirected edge, so all edge-attribute access goes
through a canonical key (`ekey`).
-/

namespace Myc

/-- Shallow embedding of the attributed undirected graph the algorithms
mutate.  `nodes` and `edges` are kept in insertion order, matching the
iteration order of `graph.nodes()` / `graph.edges()` in NetworkX.  -/
structure MGraph where
  nodes : List ℕ
  res : ℕ → Option ℚ
  edges : List (ℕ × ℕ)
  cap : ℕ × ℕ → Option ℚ
  strength : ℕ × ℕ → Option ℚ
  healing : ℕ × ℕ → Option Bool

/-- Canonical key of an undirected edge: NetworkX stores one attribute
dictionary per undirected edge, shared by both orientations.  -/
def ekey (e : ℕ × ℕ) : ℕ × ℕ := if e.1 ≤ e.2 then e else (e.2, e.1)

/-- `graph.nodes[n].get('resources', 0)`.  -/
def getRes (g : MGraph) (n : ℕ) : ℚ := (g.res n).getD 0

/-- `graph.nodes[n]['resources'] = v`.  -/
def setRes (g : MGraph) (n : ℕ) (v : ℚ) : MGraph :=
  { g with res := fun m => if m = n then some v else g.res m }

/-- `graph.edges[e].get('capacity', 1)`.  -/
def getCap (g : MGraph) (e : ℕ × ℕ) : ℚ := (g.cap (ekey e)).getD 1

/-- `graph.edges[e].get('strength', 1.0)`.  -/
def getStrength (g : MGraph) (e : ℕ × ℕ) : ℚ := (g.strength (ekey e)).getD 1

/-- `graph.edges[e]['strength'] = v`.  -/
def setStrength (g : MGraph) (e : ℕ × ℕ) (v : ℚ) : MGraph :=
  { g with strength := fun p => if p = ekey e then some v else g.strength p }

/-- Sum of the `resources` attribute over all nodes of the graph.  -/
def totalRes (g : MGraph) : ℚ := (g.nodes.map (getRes g)).sum

/-- Well-formedness: exactly the graphs representable as a NetworkX
simple graph as the spec's data model describes them — unique node keys,
no self-loops, edge endpoints are nodes, and no two entries of the edge
list denote the same undirected edge.  -/
def WF (g : MGraph) : Prop :=
  g.nodes.Nodup ∧
  (∀ e ∈ g.edges, e.1 ≠ e.2 ∧ e.1 ∈ g.nodes ∧ e.2 ∈ g.nodes) ∧
  g.edges.Pairwise (fun e f => ekey e ≠ ekey f)

instance (g : MGraph) : Decidable (WF g) := by
  unfold WF; infer_instance

/-! ### Flow simulation (`nutrient_flow_simulation`) -/

/-- One entry of `step_flows`: `{'direction': ..., 'amount': ...}`.  -/
structure FlowData where
  direction : ℕ × ℕ
  amount : ℚ
deriving DecidableEq, Repr

/-- The body of the first `for edge in graph.edges()` loop of a
simulation step: the `step_flows` entry the edge `e` contributes, if
any.  -/
def flowEntry (g : MGraph) (e : ℕ × ℕ) : Option ((ℕ × ℕ) × FlowData) :=
  let resource1 := getRes g e.1
  let resource2 := getRes g e.2
  if resource1 ≠ resource2 then
    let capacity := getCap g e
    let flow_rate := min capacity (|resource1 - resource2| * (1 / 10))
    if resource1 > resource2 then
      some (e, ⟨(e.1, e.2), flow_rate⟩)
    else
      some (e, ⟨(e.2, e.1), flow_rate⟩)
  else none

/-- The snapshot phase of one simulation step: the first `for edge in
graph.edges()` loop, building `step_flows` (a dict in edge-list order).  -/
def computeFlows (g : MGraph) : List ((ℕ × ℕ) × FlowData) :=
  g.edges.filterMap (flowEntry g)

/-- One iteration of the apply loop (`for edge, flow_data in
step_flows.items()`): both resource reads happen before both writes, the
debit is clamped at zero, the credit is the unclamped amount, then the
edge is strengthened (clamped at 2.0).  -/
def applyFlow (g : MGraph) (ef : (ℕ × ℕ) × FlowData) : MGraph :=
  let from_node := ef.2.direction.1
  let to_node := ef.2.direction.2
  let amount := ef.2.amount
  let current_from := getRes g from_node
  let current_to := getRes g to_node
  let g1 := setRes g from_node (max 0 (current_from - amount))
  let g2 := setRes g1 to_node (current_to + amount)
  let current_strength := getStrength g2 ef.1
  setStrength g2 ef.1 (min 2 (current_strength + 1 / 10))

/-- One full simulation step: snapshot, then sequential application in
`step_flows` insertion order; returns the mutated graph and the step's
flow record.  -/
def flowStep (g : MGraph) : MGraph × List ((ℕ × ℕ) × FlowData) :=
  let step_flows := computeFlows g
  (step_flows.foldl applyFlow g, step_flows)

/-- The `for step in range(time_steps)` loop, accumulating
`flow_history`.  -/
def runSim (g : MGraph) : ℕ → MGraph × List (List ((ℕ × ℕ) × FlowData))
  | 0 => (g, [])
  | n + 1 =>
    let p := flowStep g
    let r := runSim p.1 n
    (r.1, p.2 :: r.2)

/-- `MyceliumAlgorithms.nutrient_flow_simulation`.  The Python body never
mentions `source_nodes` or `sink_nodes`; the result is the final graph
state together with `flow_history`.  -/
def nutrient_flow_simulation (g : MGraph) (source_nodes sink_nodes : List ℕ)
    (time_steps : ℕ) : MGraph × List (List ((ℕ × ℕ) × FlowData)) :=
  runSim g time_steps

/-! ### Graph primitives shared by pathfinding and healing -/

/-- `graph.has_edge(u, v)` (undirected membership in the edge list).  -/
def hasEdge (g : MGraph) (u v : ℕ) : Bool :=
  g.edges.any (fun e => (e.1 == u && e.2 == v) || (e.1 == v && e.2 == u))

/-- `graph.neighbors(n)`: the adjacency of `n`, read off the edge list.  -/
def neighbors (g : MGraph) (n : ℕ) : List ℕ :=
  g.edges.filterMap (fun e =>
    if e.1 = n then some e.2 else if e.2 = n then some e.1 else none)

/-- `graph.remove_edge(u, v)`: drops the undirected edge and its
attribute entries.  -/
def removeEdge (g : MGraph) (u v : ℕ) : MGraph :=
  { g with
    edges := g.edges.filter
      (fun e => !((e.1 == u && e.2 == v) || (e.1 == v && e.2 == u)))
    cap := fun p => if p = ekey (u, v) then none else g.cap p
    strength := fun p => if p = ekey (u, v) then none else g.strength p
    healing := fun p => if p = ekey (u, v) then none else g.healing p }

/-- `graph.remove_node(n)`: removes the node, its attribute record and
every incident edge.  -/
def removeNode (g : MGraph) (n : ℕ) : MGraph :=
  { g with
    nodes := g.nodes.filter (fun m => m != n)
    res := fun m => if m = n then none else g.res m
    edges := g.edges.filter (fun e => e.1 != n && e.2 != n) }

/-- `graph.add_edge(u, v, strength=hf, capacity=5, healing_connection=True)`
as the healing routine performs it: NetworkX inserts missing endpoints as
nodes, records the undirected edge once, and (re)sets its attributes.  -/
def addEdge (g : MGraph) (u v : ℕ) (hf : ℚ) : MGraph :=
  let ns1 := if u ∈ g.nodes then g.nodes else g.nodes ++ [u]
  let ns2 := if v ∈ ns1 then ns1 else ns1 ++ [v]
  { nodes := ns2
    res := g.res
    edges := if hasEdge g u v then g.edges else g.edges ++ [(u, v)]
    cap := fun p => if p = ekey (u, v) then some 5 else g.cap p
    strength := fun p => if p = ekey (u, v) then some hf else g.strength p
    healing := fun p => if p = ekey (u, v) then some true else g.healing p }

/-! ### Shortest paths (the `nx.shortest_path` dependency)

`nx.shortest_path(graph, start, target)` on an unweighted graph returns
some hop-count-shortest path from `start` to `target`, raising
`NetworkXNoPath` when the two are disconnected (the Python caller turns
that into an empty result / a skipped trial).  We embed it as a total
function returning `Option`: walks from `start` are enumerated level by
level and the first one reaching `target` is returned.  Which shortest
path is returned is a tie-break the spec explicitly leaves open.  -/

/-- All walks of `L` edges that start at `s`, each stored in reverse
(most recent vertex first).  -/
def walksFrom (g : MGraph) (s : ℕ) : ℕ → List (List ℕ)
  | 0 => [[s]]
  | n + 1 =>
    (walksFrom g s n).flatMap (fun w =>
      match w with
      | v :: _ => (neighbors g v).map (fun u => u :: w)
      | [] => [])

/-- First enumerated walk of exactly `L` edges from `s` ending at `t`,
returned in forward order.  -/
def findAtLevel (g : MGraph) (s t : ℕ) (L : ℕ) : Option (List ℕ) :=
  ((walksFrom g s L).find? (fun w => w.head? == some t)).map List.reverse

/-- Iterative deepening over the level `L`, with enough fuel to cover
every hop count a shortest path can have.  -/
def spAux (g : MGraph) (s t : ℕ) : ℕ → ℕ → Option (List ℕ)
  | 0, _ => none
  | fuel + 1, L =>
    match findAtLevel g s t L with
    | some p => some p
    | none => spAux g s t fuel (L + 1)

/-- `nx.shortest_path(graph, s, t)`, under the documented contract that
`s` and `t` are existing node keys; `none` models the `NetworkXNoPath`
exception.  -/
def shortest_path (g : MGraph) (s t : ℕ) : Option (List ℕ) :=
  spAux g s t (g.nodes.length + 1) 0

/-! ### Pathfinding (`hyphal_growth_pathfinding`) -/

/-- `graph.copy()`: an independent working copy; in the functional
embedding the copy is the same immutable value, and every later
mutation of the copy builds a new value, leaving the original intact.  -/
def graphCopy (g : MGraph) : MGraph := g

/-- The consecutive vertex pairs `(path[i], path[i+1])` of a path.  -/
def pathPairs (p : List ℕ) : List (ℕ × ℕ) := p.zip p.tail

/-- The inner perturbation loop over one found path: each still-present
edge of the path is removed with probability 0.3.  `rng` is the stream
of `random.random()` draws and `k` the index of the next draw (a draw is
consumed only when `has_edge` holds, exactly as in the Python).  -/
def perturbPairs (rng : ℕ → ℚ) : MGraph → ℕ → List (ℕ × ℕ) → MGraph × ℕ
  | tg, k, [] => (tg, k)
  | tg, k, (a, b) :: rest =>
    if hasEdge tg a b then
      if rng k < 3 / 10 then perturbPairs rng (removeEdge tg a b) (k + 1) rest
      else perturbPairs rng tg (k + 1) rest
    else perturbPairs rng tg k rest

/-- The `for path_type, path in paths:` loop perturbing a fresh copy.  -/
def perturbAll (rng : ℕ → ℚ) (tg : MGraph) (k : ℕ)
    (ps : List (String × List ℕ)) : MGraph × ℕ :=
  ps.foldl (fun acc lp => perturbPairs rng acc.1 acc.2 (pathPairs lp.2)) (tg, k)

/-- The `for _ in range(3)` alternatives loop: perturb a fresh copy of
the original graph, retry the shortest path, and append it (labelled
`alternative_<len(paths)>`) when it is new; a failed trial is skipped
silently.  -/
def altTrials (g : MGraph) (start target : ℕ) (rng : ℕ → ℚ) :
    ℕ → List (String × List ℕ) → ℕ → List (String × List ℕ)
  | 0, ps, _ => ps
  | n + 1, ps, k =>
    let tk := perturbAll rng (graphCopy g) k ps
    let ps' :=
      match shortest_path tk.1 start target with
      | some alt =>
        if alt ∈ ps.map Prod.snd then ps
        else ps ++ [("alternative_" ++ toString ps.length, alt)]
      | none => ps
    altTrials g start target rng n ps' tk.2

/-- `MyceliumAlgorithms.hyphal_growth_pathfinding`.  The second component
of the result is the caller's graph after the call (the Python function
only ever reads `graph`; all edge removal happens on copies).  -/
def hyphal_growth_pathfinding (g : MGraph) (start target : ℕ)
    (rng : ℕ → ℚ) : List (String × List ℕ) × MGraph :=
  match shortest_path g start target with
  | none => ([], g)
  | some primary => (altTrials g start target rng 3 [("primary", primary)] 0, g)

/-! ### Self-healing (`self_healing_response`) -/

/-- The data content of one entry of `healing_actions` (the Python code
renders these as f-strings; the node/amount payload is what the strings
report).  -/
inductive HealAction where
  | removed (node : ℕ) (resources : ℚ)
  | connected (node1 node2 : ℕ)
deriving DecidableEq, Repr

/-- Processing of a single entry of `damaged_nodes`: skip if absent,
otherwise redistribute `resources / len(neighbors)` to each neighbor
(when there is at least one), remove the node, and report the action.  -/
def healStep (g : MGraph) (node : ℕ) : MGraph × Option HealAction :=
  if node ∈ g.nodes then
    let nbrs := neighbors g node
    let resources := getRes g node
    let g1 :=
      if nbrs.isEmpty then g
      else
        nbrs.foldl
          (fun h nb => setRes h nb (getRes h nb + resources / nbrs.length)) g
    (removeNode g1 node, some (HealAction.removed node resources))
  else (g, none)

/-- The `for node in damaged_nodes:` loop, in order.  -/
def removePhase : MGraph → List ℕ → MGraph × List HealAction
  | g, [] => (g, [])
  | g, node :: rest =>
    let p := healStep g node
    let q := removePhase p.1 rest
    (q.1, p.2.toList ++ q.2)

/-- One saturation step used to compute a connected component: add every
node adjacent to the set collected so far.  -/
def expand (g : MGraph) (s : List ℕ) : List ℕ :=
  s ++ g.nodes.filter (fun v => !(s.contains v) && s.any (fun a => hasEdge g a v))

/-- The connected component of `n`, as a list of nodes: saturating
`expand` as many times as there are nodes reaches the full component.  -/
def compOf (g : MGraph) (n : ℕ) : List ℕ := (expand g)^[g.nodes.length] [n]

/-- Components in order of first appearance in the node list, skipping
nodes already covered — the order `nx.connected_components` yields.  -/
def componentsAux (g : MGraph) : List ℕ → List ℕ → List (List ℕ)
  | [], _ => []
  | n :: rest, seen =>
    if n ∈ seen then componentsAux g rest seen
    else compOf g n :: componentsAux g rest (seen ++ compOf g n)

/-- `list(nx.connected_components(graph))` (each component as a node
list rather than a set).  -/
def connected_components (g : MGraph) : List (List ℕ) :=
  componentsAux g g.nodes []

/-- The reconnection loop: one healing edge between a randomly chosen
node of each consecutive pair of components.  `rng k l` models the
`k`-th `random.choice` call drawing from list `l`.  -/
def healChain (hf : ℚ) (rng : ℕ → List ℕ → ℕ) :
    MGraph → List (List ℕ) → ℕ → MGraph × List HealAction
  | g, c1 :: c2 :: rest, k =>
    let node1 := rng k c1
    let node2 := rng (k + 1) c2
    let g1 := addEdge g node1 node2 hf
    let r := healChain hf rng g1 (c2 :: rest) (k + 2)
    (r.1, HealAction.connected node1 node2 :: r.2)
  | g, _, _ => (g, [])

/-- `MyceliumAlgorithms.self_healing_response`: remove and redistribute
the damaged nodes in order, then, if more than one component remains,
chain consecutive components together with healing edges.  -/
def self_healing_response (g : MGraph) (damaged : List ℕ)
    (healing_factor : ℚ) (rng : ℕ → List ℕ → ℕ) : MGraph × List HealAction :=
  let p := removePhase g damaged
  let comps := connected_components p.1
  if comps.length > 1 then
    let q := healChain healing_factor rng p.1 comps 0
    (q.1, p.2 ++ q.2)
  else p

/-! ### Specification-side notions: walks, reachability -/

/-- `p` is a walk from `s` to `t` in `g`: nonempty, starts at `s`, ends
at `t`, and consecutive vertices are joined by an edge.  The number of
hops of the walk is `p.length - 1`.  -/
def IsWalkFromTo (g : MGraph) (s t : ℕ) (p : List ℕ) : Prop :=
  p.head? = some s ∧ p.getLast? = some t ∧
    List.Chain' (fun a b => hasEdge g a b = true) p

/-- `a` and `b` are connected in `g` (reflexive-transitive closure of
edge adjacency).  -/
def ReachG (g : MGraph) : ℕ → ℕ → Prop :=
  Relation.ReflTransGen (fun a b => hasEdge g a b = true)

/-! ### Concrete graphs used as counterexamples and witnesses -/

/-- A star: node 0 holds 10 resources and has 11 empty leaves; every
edge has capacity 5.  All resources are non-negative.  -/
def starG : MGraph :=
  { nodes := List.range 12
    res := fun n => if n = 0 then some 10 else if n < 12 then some 0 else none
    edges := (List.range 11).map (fun i => (0, i + 1))
    cap := fun _ => some 5
    strength := fun _ => none
    healing := fun _ => none }

/-- Two nodes holding 100 and 0 resources, joined by an edge carrying no
`capacity` (and no `strength`) attribute.  -/
def noCapG : MGraph :=
  { nodes := [1, 2]
    res := fun n => if n = 1 then some 100 else if n = 2 then some 0 else none
    edges := [(1, 2)]
    cap := fun _ => none
    strength := fun _ => none
    healing := fun _ => none }

/-- Two nodes holding 10 and 0 resources, joined by an edge of capacity
`-5`.  All resources are non-negative.  -/
def negCapG : MGraph :=
  { nodes := [1, 2]
    res := fun n => if n = 1 then some 10 else if n = 2 then some 0 else none
    edges := [(1, 2)]
    cap := fun e => if e = (1, 2) then some (-5) else none
    strength := fun _ => none
    healing := fun _ => none }

/-- Two nodes holding 10 and 0 resources, joined by an edge of capacity
0 and strength 1.  -/
def zeroCapG : MGraph :=
  { nodes := [1, 2]
    res := fun n => if n = 1 then some 10 else if n = 2 then some 0 else none
    edges := [(1, 2)]
    cap := fun e => if e = (1, 2) then some 0 else none
    strength := fun e => if e = (1, 2) then some 1 else none
    healing := fun _ => none }

/-- A five-node graph: path 1-2-3-4 plus the shortcut 1-5-4.  -/
def pathG : MGraph :=
  { nodes := [1, 2, 3, 4, 5]
    res := fun _ => none
    edges := [(1, 2), (2, 3), (3, 4), (1, 5), (5, 4)]
    cap := fun _ => none
    strength := fun _ => none
    healing := fun _ => none }

/-- The spec's healing scenario: node 1 holds 30 resources and has the
two neighbors 2 and 3 (which hold 5 each); removing node 1 disconnects
them.  -/
def healG : MGraph :=
  { nodes := [1, 2, 3]
    res := fun n => if n = 1 then some 30 else if n ≤ 3 then some 5 else none
    edges := [(1, 2), (1, 3)]
    cap := fun _ => none
    strength := fun _ => none
    healing := fun _ => none }

/-- A node 1 holding 7 resources with no neighbors, next to a disjoint
edge 2-3.  -/
def isoG : MGraph :=
  { nodes := [1, 2, 3]
    res := fun n => if n = 1 then some 7 else if n ≤ 3 then some 2 else none
    edges := [(2, 3)]
    cap := fun _ => none
    strength := fun _ => none
    healing := fun _ => none }

/-! ### C1 — flow conservation -/

set_option maxRecDepth 4000 in
/-- C1.  The claim states that the per-step total of `resources` is
conserved because the destination is credited the actually-debited
(clamped) amount.  The code credits the originally computed amount
(line 97) while clamping only the debit (line 96), so whenever the
clamp fires, resource is created.  On `starG` (all resources
non-negative) every one of the 11 edges records a flow of amount 1 out
of node 0, which holds only 10: after the apply phase the total has
grown from 10 to 11.  -/
theorem C1_conservation_violated :
    totalRes starG = 10 ∧ totalRes (flowStep starG).1 = 11 := by
  constructor <;> with_unfolding_all decide

/-! ### C2 — attribute defaults -/

/-- C2 counterexample.  The claim says a missing `capacity` is read as
0.  The code reads `graph.edges[edge].get('capacity', 1)` — the default
is 1: on `noCapG` (no capacity attribute anywhere, resource gap 100) the
recorded flow amount is `min(1, 10) = 1`, not `min(0, 10) = 0`.  -/
theorem C2_capacity_default_not_zero :
    noCapG.cap (ekey (1, 2)) = none ∧ getCap noCapG (1, 2) = 1 ∧
      (computeFlows noCapG).map (fun x => x.2.amount) = [1] := by
  refine ⟨rfl, by decide, by with_unfolding_all decide⟩

/-- C2 amended.  A missing `resources` attribute is read as 0, a missing
`strength` attribute as 1.0, and a missing `capacity` attribute as 1
(not 0); none of them errors (the accessors are total).  -/
theorem C2_defaults (g : MGraph) (n : ℕ) (e f : ℕ × ℕ)
    (hr : g.res n = none) (hc : g.cap (ekey e) = none)
    (hs : g.strength (ekey f) = none) :
    getRes g n = 0 ∧ getCap g e = 1 ∧ getStrength g f = 1 := by
  refine ⟨?_, ?_, ?_⟩ <;> simp [getRes, getCap, getStrength, hr, hc, hs]

/-- C2 witness: the defaults evaluated on `noCapG`.  -/
theorem C2_defaults_witness :
    noCapG.res 7 = none ∧ noCapG.cap (ekey (1, 2)) = none ∧
      noCapG.strength (ekey (1, 2)) = none ∧
      (getRes noCapG 7 = 0 ∧ getCap noCapG (1, 2) = 1 ∧
        getStrength noCapG (1, 2) = 1) :=
  ⟨by decide, rfl, rfl, C2_defaults noCapG 7 (1, 2) (1, 2) (by decide) rfl rfl⟩

/-! ### C3 — `source_nodes` / `sink_nodes` are ignored -/

/-- C3.  `nutrient_flow_simulation` never consults `source_nodes` or
`sink_nodes`: for any graph and step count, any two choices of these
arguments give the identical flow history and the identical final graph
state.  (In the embedding, as in the Python body, the two parameters
simply never occur.)  -/
theorem C3_sources_sinks_ignored (g : MGraph) (time_steps : ℕ)
    (src1 snk1 src2 snk2 : List ℕ) :
    nutrient_flow_simulation g src1 snk1 time_steps =
      nutrient_flow_simulation g src2 snk2 time_steps := rfl

/-! ### C4 — pathfinding does not mutate the caller's graph -/

/-- C4.  `hyphal_growth_pathfinding` leaves the caller's graph exactly
as it was: every exploratory edge removal is performed on the private
copy `temp_graph`; the returned caller-side graph is the input graph,
for every input and every RNG stream.  -/
theorem C4_graph_unchanged (g : MGraph) (start target : ℕ) (rng : ℕ → ℚ) :
    (hyphal_growth_pathfinding g start target rng).2 = g := by
  unfold hyphal_growth_pathfinding
  cases shortest_path g start target <;> rfl

/-! ### C6 — resource non-negativity: counterexample -/

/-- C6 counterexample.  The claim quantifies over every graph whose
nodes start with non-negative `resources`, with no restriction on edge
attributes.  On `negCapG` (resources 10 and 0, capacity −5) the
computed rate is `min(-5, 1) = -5`, so one step credits −5 to node 2:
its `resources` ends negative.  -/
theorem C6_negative_capacity_breaks_nonneg :
    (∀ n, 0 ≤ getRes negCapG n) ∧
      getRes (runSim negCapG 1).1 2 = -5 := by
  constructor
  · intro n
    simp only [negCapG, getRes]
    split <;> [norm_num; skip]
    split <;> norm_num
  · with_unfolding_all decide

/-! ### Basic facts about one simulation step -/

theorem getRes_setRes (g : MGraph) (n : ℕ) (v : ℚ) (m : ℕ) :
    getRes (setRes g n v) m = if m = n then v else getRes g m := by
  simp only [getRes, setRes]
  split <;> rfl

theorem getRes_setStrength (g : MGraph) (e : ℕ × ℕ) (v : ℚ) (m : ℕ) :
    getRes (setStrength g e v) m = getRes g m := rfl

theorem getStrength_setRes (g : MGraph) (n : ℕ) (v : ℚ) (e : ℕ × ℕ) :
    getStrength (setRes g n v) e = getStrength g e := rfl

theorem getStrength_setStrength (g : MGraph) (f : ℕ × ℕ) (v : ℚ) (e : ℕ × ℕ) :
    getStrength (setStrength g f v) e =
      if ekey e = ekey f then v else getStrength g e := by
  simp only [getStrength, setStrength]
  split <;> rfl

theorem getRes_applyFlow (g : MGraph) (x : (ℕ × ℕ) × FlowData) (m : ℕ) :
    getRes (applyFlow g x) m =
      if m = x.2.direction.2 then getRes g x.2.direction.2 + x.2.amount
      else if m = x.2.direction.1 then
        max 0 (getRes g x.2.direction.1 - x.2.amount)
      else getRes g m := by
  simp only [applyFlow, getRes_setStrength, getRes_setRes]

theorem getStrength_applyFlow (g : MGraph) (x : (ℕ × ℕ) × FlowData)
    (e : ℕ × ℕ) :
    getStrength (applyFlow g x) e =
      if ekey e = ekey x.1 then min 2 (getStrength g x.1 + 1 / 10)
      else getStrength g e := by
  simp only [applyFlow, getStrength_setStrength, getStrength_setRes]

theorem applyFlow_nodes (g : MGraph) (x : (ℕ × ℕ) × FlowData) :
    (applyFlow g x).nodes = g.nodes := rfl

theorem applyFlow_edges (g : MGraph) (x : (ℕ × ℕ) × FlowData) :
    (applyFlow g x).edges = g.edges := rfl

theorem applyFlow_cap (g : MGraph) (x : (ℕ × ℕ) × FlowData) :
    (applyFlow g x).cap = g.cap := rfl

theorem foldl_applyFlow_nodes (L : List ((ℕ × ℕ) × FlowData)) (g : MGraph) :
    (L.foldl applyFlow g).nodes = g.nodes := by
  induction L generalizing g with
  | nil => rfl
  | cons x xs ih => simpa using ih (applyFlow g x)

theorem foldl_applyFlow_edges (L : List ((ℕ × ℕ) × FlowData)) (g : MGraph) :
    (L.foldl applyFlow g).edges = g.edges := by
  induction L generalizing g with
  | nil => rfl
  | cons x xs ih => simpa using ih (applyFlow g x)

theorem foldl_applyFlow_cap (L : List ((ℕ × ℕ) × FlowData)) (g : MGraph) :
    (L.foldl applyFlow g).cap = g.cap := by
  induction L generalizing g with
  | nil => rfl
  | cons x xs ih => simpa using ih (applyFlow g x)

theorem flowStep_nodes (g : MGraph) : (flowStep g).1.nodes = g.nodes :=
  foldl_applyFlow_nodes _ g

theorem flowStep_edges (g : MGraph) : (flowStep g).1.edges = g.edges :=
  foldl_applyFlow_edges _ g

theorem flowStep_cap (g : MGraph) : (flowStep g).1.cap = g.cap :=
  foldl_applyFlow_cap _ g

theorem getCap_eq_of_cap_eq {g h : MGraph} (hc : h.cap = g.cap)
    (e : ℕ × ℕ) : getCap h e = getCap g e := by
  simp [getCap, hc]

theorem runSim_fst_nodes (g : MGraph) (t : ℕ) :
    (runSim g t).1.nodes = g.nodes := by
  induction t generalizing g with
  | zero => rfl
  | succ n ih => simpa [runSim, flowStep_nodes] using ih (flowStep g).1

theorem runSim_fst_edges (g : MGraph) (t : ℕ) :
    (runSim g t).1.edges = g.edges := by
  induction t generalizing g with
  | zero => rfl
  | succ n ih => simpa [runSim, flowStep_edges] using ih (flowStep g).1

theorem runSim_fst_cap (g : MGraph) (t : ℕ) :
    (runSim g t).1.cap = g.cap := by
  induction t generalizing g with
  | zero => rfl
  | succ n ih => simpa [runSim, flowStep_cap] using ih (flowStep g).1

theorem runSim_fst_succ (g : MGraph) (t : ℕ) :
    (runSim g (t + 1)).1 = (flowStep (runSim g t).1).1 := by
  induction t generalizing g with
  | zero => rfl
  | succ n ih =>
    show (runSim (flowStep g).1 (n + 1)).1 = _
    rw [ih (flowStep g).1]
    rfl

/-! ### Non-negativity of resources (C6) -/

theorem flowEntry_amount_nonneg {g : MGraph} (hcap : ∀ e, 0 ≤ getCap g e)
    {e : ℕ × ℕ} {x : (ℕ × ℕ) × FlowData} (hx : flowEntry g e = some x) :
    0 ≤ x.2.amount := by
  have hr : (0 : ℚ) ≤ |getRes g e.1 - getRes g e.2| * (1 / 10) := by
    positivity
  simp only [flowEntry] at hx
  split at hx
  · split at hx <;>
      · cases hx
        exact le_min (hcap e) hr
  · cases hx

theorem computeFlows_amount_nonneg {g : MGraph}
    (hcap : ∀ e, 0 ≤ getCap g e) :
    ∀ x ∈ computeFlows g, 0 ≤ x.2.amount := by
  intro x hx
  rcases List.mem_filterMap.1 hx with ⟨e, _, he⟩
  exact flowEntry_amount_nonneg hcap he

theorem getRes_applyFlow_nonneg {g : MGraph}
    (hres : ∀ n, 0 ≤ getRes g n) {x : (ℕ × ℕ) × FlowData}
    (hx : 0 ≤ x.2.amount) : ∀ n, 0 ≤ getRes (applyFlow g x) n := by
  intro n
  rw [getRes_applyFlow]
  split
  · exact add_nonneg (hres _) hx
  · split
    · exact le_max_left _ _
    · exact hres n

theorem foldl_applyFlow_nonneg :
    ∀ (L : List ((ℕ × ℕ) × FlowData)) (g : MGraph),
      (∀ x ∈ L, 0 ≤ x.2.amount) → (∀ n, 0 ≤ getRes g n) →
      ∀ n, 0 ≤ getRes (L.foldl applyFlow g) n := by
  intro L
  induction L with
  | nil => intro g _ hres n; exact hres n
  | cons x xs ih =>
    intro g hL hres n
    exact ih (applyFlow g x) (fun y hy => hL y (List.mem_cons_of_mem _ hy))
      (getRes_applyFlow_nonneg hres (hL x (List.mem_cons_self x xs))) n

theorem flowStep_res_nonneg {g : MGraph} (hres : ∀ n, 0 ≤ getRes g n)
    (hcap : ∀ e, 0 ≤ getCap g e) : ∀ n, 0 ≤ getRes (flowStep g).1 n :=
  foldl_applyFlow_nonneg _ g (computeFlows_amount_nonneg hcap) hres

/-- C6 amended.  The claim holds once the graph's edge capacities are
also non-negative (the spec's data model calls `capacity` positive; a
negative capacity turns the computed rate negative and the claim fails,
see the counterexample): starting from non-negative `resources`
everywhere, a single step — and hence any number of steps of
`nutrient_flow_simulation` — leaves every node's `resources` at or
above 0.  -/
theorem C6_nonneg_amended (g : MGraph) (hres : ∀ n, 0 ≤ getRes g n)
    (hcap : ∀ e, 0 ≤ getCap g e) :
    (∀ n, 0 ≤ getRes (flowStep g).1 n) ∧
      ∀ (source_nodes sink_nodes : List ℕ) (time_steps : ℕ) (n : ℕ),
        0 ≤ getRes
          (nutrient_flow_simulation g source_nodes sink_nodes time_steps).1 n := by
  refine ⟨flowStep_res_nonneg hres hcap, ?_⟩
  intro _ _ time_steps
  show ∀ n, 0 ≤ getRes (runSim g time_steps).1 n
  induction time_steps generalizing g with
  | zero => exact hres
  | succ t ih =>
    have hcap' : ∀ e, 0 ≤ getCap (flowStep g).1 e := by
      intro e
      rw [getCap_eq_of_cap_eq (flowStep_cap g)]
      exact hcap e
    exact ih (flowStep g).1 (flowStep_res_nonneg hres hcap) hcap'

/-- C6 witness: the amended non-negativity evaluated on the star graph
after two steps.  -/
theorem C6_nonneg_amended_witness :
    (∀ n, 0 ≤ getRes starG n) ∧ 0 ≤ getRes (runSim starG 2).1 0 := by
  have hres : ∀ n, 0 ≤ getRes starG n := by
    intro n
    simp only [starG, getRes]
    split
    · norm_num
    · split <;> norm_num
  have hcap : ∀ e, 0 ≤ getCap starG e := by
    intro e
    norm_num [getCap, starG]
  exact ⟨hres, (C6_nonneg_amended starG hres hcap).2 [] [] 2 0⟩

/-! ### Edge strength across steps (C7) -/

theorem flowEntry_key {g : MGraph} {e : ℕ × ℕ} {x : (ℕ × ℕ) × FlowData}
    (hx : flowEntry g e = some x) : x.1 = e := by
  simp only [flowEntry] at hx
  split at hx
  · split at hx <;> · cases hx; rfl
  · cases hx

theorem flowEntry_none_iff {g : MGraph} {e : ℕ × ℕ} :
    flowEntry g e = none ↔ getRes g e.1 = getRes g e.2 := by
  simp only [flowEntry]
  split <;> rename_i h
  · constructor
    · intro hx
      split at hx <;> cases hx
    · intro hx
      exact absurd hx h
  · simpa using not_not.1 h

theorem filterMap_flowEntry_key {g : MGraph} {l : List (ℕ × ℕ)}
    {x : (ℕ × ℕ) × FlowData} (hx : x ∈ l.filterMap (flowEntry g)) :
    x.1 ∈ l := by
  rcases List.mem_filterMap.1 hx with ⟨e, he, hfe⟩
  rw [flowEntry_key hfe]
  exact he

theorem ekey_injOn_edges {g : MGraph} (hwf : WF g) {e f : ℕ × ℕ}
    (he : e ∈ g.edges) (hf : f ∈ g.edges) (hk : ekey e = ekey f) : e = f := by
  by_contra hne
  have hsym : Symmetric (fun a b : ℕ × ℕ => ekey a ≠ ekey b) :=
    fun a b h h' => h h'.symm
  exact List.Pairwise.forall hsym hwf.2.2 he hf hne hk

theorem foldl_strength_untouched :
    ∀ (L : List ((ℕ × ℕ) × FlowData)) (g : MGraph) (e : ℕ × ℕ),
      (∀ x ∈ L, ekey x.1 ≠ ekey e) →
      getStrength (L.foldl applyFlow g) e = getStrength g e := by
  intro L
  induction L with
  | nil => intro g e _; rfl
  | cons x xs ih =>
    intro g e hL
    have h1 : getStrength (applyFlow g x) e = getStrength g e := by
      rw [getStrength_applyFlow]
      rw [if_neg (fun h => hL x (List.mem_cons_self x xs) h.symm)]
    calc getStrength (List.foldl applyFlow g (x :: xs)) e
        = getStrength (xs.foldl applyFlow (applyFlow g x)) e := rfl
      _ = getStrength (applyFlow g x) e :=
          ih (applyFlow g x) e (fun y hy => hL y (List.mem_cons_of_mem _ hy))
      _ = getStrength g e := h1

/-- The exact per-step evolution of an edge's `strength`: strengthened
(clamped at 2.0) exactly when the edge's endpoints held different
resources at the start of the step, untouched otherwise.  -/
theorem flowStep_strength_eq {g : MGraph} (hwf : WF g) {e : ℕ × ℕ}
    (he : e ∈ g.edges) :
    getStrength (flowStep g).1 e =
      if getRes g e.1 = getRes g e.2 then getStrength g e
      else min 2 (getStrength g e + 1 / 10) := by
  by_cases hr : getRes g e.1 = getRes g e.2
  · rw [if_pos hr]
    refine foldl_strength_untouched _ g e ?_
    intro x hx hk
    have hxe : x.1 ∈ g.edges := filterMap_flowEntry_key hx
    have : x.1 = e := ekey_injOn_edges hwf hxe he hk
    rcases List.mem_filterMap.1 hx with ⟨f, _, hfe⟩
    have hfeq : f = e := (flowEntry_key hfe).symm.trans this
    rw [hfeq, flowEntry_none_iff.2 hr] at hfe
    cases hfe
  · rw [if_neg hr]
    rcases List.append_of_mem he with ⟨l₁, l₂, hsplit⟩
    have hfe : ∃ fd, flowEntry g e = some (e, fd) := by
      simp only [flowEntry]
      rw [if_pos hr]
      split <;> exact ⟨_, rfl⟩
    rcases hfe with ⟨fd, hfd⟩
    have hpw := hwf.2.2
    rw [hsplit] at hpw
    rcases List.pairwise_append.1 hpw with ⟨_, hpw2, hcross⟩
    have hflows : computeFlows g =
        l₁.filterMap (flowEntry g) ++ ((e, fd) :: l₂.filterMap (flowEntry g)) := by
      show g.edges.filterMap (flowEntry g) = _
      rw [hsplit, List.filterMap_append, List.filterMap_cons, hfd]
    have huntouched1 :
        getStrength ((l₁.filterMap (flowEntry g)).foldl applyFlow g) e =
          getStrength g e := by
      refine foldl_strength_untouched _ g e ?_
      intro x hx
      exact hcross x.1 (filterMap_flowEntry_key hx) e (List.mem_cons_self e l₂)
    have he2 := (List.pairwise_cons.1 hpw2).1
    show getStrength ((computeFlows g).foldl applyFlow g) e = _
    rw [hflows, List.foldl_append, List.foldl_cons]
    calc getStrength ((l₂.filterMap (flowEntry g)).foldl applyFlow
            (applyFlow ((l₁.filterMap (flowEntry g)).foldl applyFlow g) (e, fd))) e
        = getStrength (applyFlow
            ((l₁.filterMap (flowEntry g)).foldl applyFlow g) (e, fd)) e := by
          refine foldl_strength_untouched _ _ e ?_
          intro x hx hk
          exact he2 x.1 (filterMap_flowEntry_key hx) hk.symm
      _ = min 2 (getStrength ((l₁.filterMap (flowEntry g)).foldl applyFlow g) e
            + 1 / 10) := by
          rw [getStrength_applyFlow, if_pos rfl]
      _ = min 2 (getStrength g e + 1 / 10) := by rw [huntouched1]

theorem strength_bounds_applyFlow {g : MGraph}
    (h : ∀ e, 0 ≤ getStrength g e ∧ getStrength g e ≤ 2)
    (x : (ℕ × ℕ) × FlowData) :
    ∀ e, 0 ≤ getStrength (applyFlow g x) e ∧
      getStrength (applyFlow g x) e ≤ 2 := by
  intro e
  rw [getStrength_applyFlow]
  split
  · constructor
    · exact le_min (by norm_num) (add_nonneg (h x.1).1 (by norm_num))
    · exact min_le_left _ _
  · exact h e

theorem strength_bounds_foldl :
    ∀ (L : List ((ℕ × ℕ) × FlowData)) (g : MGraph),
      (∀ e, 0 ≤ getStrength g e ∧ getStrength g e ≤ 2) →
      ∀ e, 0 ≤ getStrength (L.foldl applyFlow g) e ∧
        getStrength (L.foldl applyFlow g) e ≤ 2 := by
  intro L
  induction L with
  | nil => intro g h; exact h
  | cons x xs ih =>
    intro g h
    exact ih (applyFlow g x) (strength_bounds_applyFlow h x)

theorem strength_bounds_flowStep {g : MGraph}
    (h : ∀ e, 0 ≤ getStrength g e ∧ getStrength g e ≤ 2) :
    ∀ e, 0 ≤ getStrength (flowStep g).1 e ∧ getStrength (flowStep g).1 e ≤ 2 :=
  strength_bounds_foldl _ g h

theorem strength_bounds_runSim {g : MGraph}
    (h : ∀ e, 0 ≤ getStrength g e ∧ getStrength g e ≤ 2) (t : ℕ) :
    ∀ e, 0 ≤ getStrength (runSim g t).1 e ∧
      getStrength (runSim g t).1 e ≤ 2 := by
  induction t generalizing g with
  | zero => exact h
  | succ n ih => exact ih (strength_bounds_flowStep h)

theorem strength_mono_applyFlow {g : MGraph}
    (h : ∀ e, 0 ≤ getStrength g e ∧ getStrength g e ≤ 2)
    (x : (ℕ × ℕ) × FlowData) (e : ℕ × ℕ) :
    getStrength g e ≤ getStrength (applyFlow g x) e := by
  rw [getStrength_applyFlow]
  split <;> rename_i hk
  · have hke : getStrength g e = getStrength g x.1 := by
      simp only [getStrength, hk]
    rw [hke]
    exact le_min (h x.1).2 (by linarith [(h x.1).1])
  · exact le_refl _

theorem strength_mono_foldl :
    ∀ (L : List ((ℕ × ℕ) × FlowData)) (g : MGraph),
      (∀ e, 0 ≤ getStrength g e ∧ getStrength g e ≤ 2) →
      ∀ e, getStrength g e ≤ getStrength (L.foldl applyFlow g) e := by
  intro L
  induction L with
  | nil => intro g _ e; exact le_refl _
  | cons x xs ih =>
    intro g h e
    exact le_trans (strength_mono_applyFlow h x e)
      (ih (applyFlow g x) (strength_bounds_applyFlow h x) e)

theorem strength_mono_flowStep {g : MGraph}
    (h : ∀ e, 0 ≤ getStrength g e ∧ getStrength g e ≤ 2) (e : ℕ × ℕ) :
    getStrength g e ≤ getStrength (flowStep g).1 e :=
  strength_mono_foldl _ g h e

theorem WF_of_parts_eq {g h : MGraph} (hn : h.nodes = g.nodes)
    (he : h.edges = g.edges) (hwf : WF g) : WF h := by
  unfold WF at hwf ⊢
  rw [hn, he]
  exact hwf

theorem WF_runSim {g : MGraph} (hwf : WF g) (t : ℕ) :
    WF (runSim g t).1 :=
  WF_of_parts_eq (runSim_fst_nodes g t) (runSim_fst_edges g t) hwf

/-- C7 counterexample.  The claim says `strength` rises (clamped)
exactly on steps where the edge carries nonzero flow and is untouched
otherwise.  On `zeroCapG` (strengths within [0,2] as the claim assumes,
capacity 0, resource gap 10) the step records a flow entry of amount
`min(0, 1) = 0` for the edge — it carries zero flow — yet its strength
is still strengthened from 1 to 1.1.  -/
theorem C7_zero_flow_still_strengthens :
    (∀ e, 0 ≤ getStrength zeroCapG e ∧ getStrength zeroCapG e ≤ 2) ∧
      computeFlows zeroCapG = [((1, 2), ⟨(1, 2), 0⟩)] ∧
      getStrength (flowStep zeroCapG).1 (1, 2) = 11 / 10 := by
  refine ⟨?_, by with_unfolding_all decide, by with_unfolding_all decide⟩
  intro e
  simp only [zeroCapG, getStrength]
  split <;> norm_num

/-- C7 amended.  For a well-formed graph whose strengths all start in
[0,2]: (1) after any number of steps every strength is still at most
2.0 (and at least 0); (2) no strength ever decreases across a step;
(3) each step multiplies out exactly as the code does — an edge is
strengthened by 0.1 (clamped at 2.0) exactly when its endpoints held
different `resources` at the start of that step (i.e. when a flow entry
— possibly of amount zero, when the capacity is zero — is recorded for
it), and is untouched otherwise.  -/
theorem C7_strength_amended (g : MGraph) (hwf : WF g)
    (hstr : ∀ e, 0 ≤ getStrength g e ∧ getStrength g e ≤ 2) :
    (∀ t e, 0 ≤ getStrength (runSim g t).1 e ∧
        getStrength (runSim g t).1 e ≤ 2) ∧
      (∀ t e, getStrength (runSim g t).1 e ≤
        getStrength (runSim g (t + 1)).1 e) ∧
      (∀ t, ∀ e ∈ g.edges,
        getStrength (runSim g (t + 1)).1 e =
          if getRes (runSim g t).1 e.1 = getRes (runSim g t).1 e.2
          then getStrength (runSim g t).1 e
          else min 2 (getStrength (runSim g t).1 e + 1 / 10)) := by
  refine ⟨fun t => strength_bounds_runSim hstr t, ?_, ?_⟩
  · intro t e
    rw [runSim_fst_succ]
    exact strength_mono_flowStep (strength_bounds_runSim hstr t) e
  · intro t e he
    rw [runSim_fst_succ]
    refine flowStep_strength_eq (WF_runSim hwf t) ?_
    rw [runSim_fst_edges]
    exact he

/-- C7 witness: the amended statement instantiated on the healing
scenario graph, whose strengths all default to 1.  -/
theorem C7_strength_amended_witness :
    WF healG ∧ getStrength (runSim healG 1).1 (1, 2) ≤ 2 := by
  have hstr : ∀ e, 0 ≤ getStrength healG e ∧ getStrength healG e ≤ 2 := by
    intro e
    simp only [healG, getStrength]
    norm_num
  exact ⟨by decide, ((C7_strength_amended healG (by decide) hstr).1 1 (1, 2)).2⟩

/-! ### Healing: removal and redistribution (C8, C10) -/

theorem ekey_swap (a b : ℕ) : ekey (a, b) = ekey (b, a) := by
  by_cases h1 : a ≤ b <;> by_cases h2 : b ≤ a
  · have hab : a = b := Nat.le_antisymm h1 h2
    subst hab; rfl
  · simp [ekey, h1, h2]
  · simp [ekey, h1, h2]
  · omega

theorem neighbors_entry_ekey {n : ℕ} {e : ℕ × ℕ} {a : ℕ}
    (h : (if e.1 = n then some e.2
          else if e.2 = n then some e.1 else none) = some a) :
    ekey e = ekey (n, a) := by
  split at h
  · rename_i h1
    cases h
    rw [show e = (e.1, e.2) from rfl, h1]
  · split at h
    · rename_i h2
      cases h
      rw [show e = (e.1, e.2) from rfl, h2, ekey_swap]
    · cases h

theorem nodup_filterMap_of_pairwise {α β : Type} {R : α → α → Prop}
    (ψ : α → Option β) :
    ∀ (l : List α), l.Pairwise R →
      (∀ a b x, R a b → ψ a = some x → ψ b = some x → False) →
      (l.filterMap ψ).Nodup := by
  intro l
  induction l with
  | nil => intro _ _; simp
  | cons a tl ih =>
    intro hpw hψ
    rcases List.pairwise_cons.1 hpw with ⟨ha, htl⟩
    rw [List.filterMap_cons]
    cases hc : ψ a with
    | none => exact ih htl hψ
    | some x =>
      refine List.nodup_cons.2 ⟨?_, ih htl hψ⟩
      intro hx
      rcases List.mem_filterMap.1 hx with ⟨b, hb, hψb⟩
      exact hψ a b x (ha b hb) hc hψb

theorem nodup_neighbors {g : MGraph} (hwf : WF g) (n : ℕ) :
    (neighbors g n).Nodup := by
  refine nodup_filterMap_of_pairwise _ g.edges hwf.2.2 ?_
  intro a b x hR ha hb
  exact hR ((neighbors_entry_ekey ha).trans (neighbors_entry_ekey hb).symm)

theorem not_mem_neighbors_self {g : MGraph} (hwf : WF g) (n : ℕ) :
    n ∉ neighbors g n := by
  intro hmem
  rcases List.mem_filterMap.1 hmem with ⟨e, he, hψ⟩
  have hne := (hwf.2.1 e he).1
  split at hψ
  · rename_i h1
    have h2 : e.2 = n := Option.some.inj hψ
    exact hne (h1.trans h2.symm)
  · split at hψ
    · rename_i h1 h2
      have h3 : e.1 = n := Option.some.inj hψ
      exact h1 h3
    · cases hψ

theorem getRes_redistribute (upd : ℚ) :
    ∀ (nbrs : List ℕ) (g : MGraph), nbrs.Nodup →
      (∀ m ∈ nbrs,
        getRes (nbrs.foldl (fun h nb => setRes h nb (getRes h nb + upd)) g) m =
          getRes g m + upd) ∧
      (∀ m, m ∉ nbrs →
        getRes (nbrs.foldl (fun h nb => setRes h nb (getRes h nb + upd)) g) m =
          getRes g m) := by
  intro nbrs
  induction nbrs with
  | nil => intro g _; exact ⟨fun m hm => absurd hm (List.not_mem_nil m), fun _ _ => rfl⟩
  | cons nb tl ih =>
    intro g hnd
    rcases List.nodup_cons.1 hnd with ⟨hnb, htl⟩
    have ihg := ih (setRes g nb (getRes g nb + upd)) htl
    constructor
    · intro m hm
      rcases List.mem_cons.1 hm with hm | hm
      · subst hm
        rw [List.foldl_cons, ihg.2 m hnb, getRes_setRes, if_pos rfl]
      · have hmnb : m ≠ nb := fun h => hnb (h ▸ hm)
        rw [List.foldl_cons, ihg.1 m hm, getRes_setRes, if_neg hmnb]
    · intro m hm
      have hmnb : m ≠ nb := fun h => hm (h ▸ List.mem_cons_self nb tl)
      have hmtl : m ∉ tl := fun h => hm (List.mem_cons_of_mem _ h)
      rw [List.foldl_cons, ihg.2 m hmtl, getRes_setRes, if_neg hmnb]

theorem getRes_removeNode {g : MGraph} {node m : ℕ} (hm : m ≠ node) :
    getRes (removeNode g node) m = getRes g m := by
  simp [getRes, removeNode, hm]

theorem node_not_mem_removeNode (g : MGraph) (node : ℕ) :
    node ∉ (removeNode g node).nodes := by
  intro hmem
  rcases List.mem_filter.1 hmem with ⟨_, hcond⟩
  simp at hcond

theorem edges_removeNode_not_incident (g : MGraph) (node : ℕ) :
    ∀ e ∈ (removeNode g node).edges, e.1 ≠ node ∧ e.2 ≠ node := by
  intro e he
  rcases List.mem_filter.1 he with ⟨_, hcond⟩
  simp only [Bool.and_eq_true, bne_iff_ne, ne_eq] at hcond
  exact hcond

/-- C8.  Per-entry behavior of the damaged-node loop of
`self_healing_response` on a well-formed graph: an absent key is skipped
silently (graph untouched, no action recorded); a present node with at
least one neighbor has exactly `R / k` added to each of its `k`
neighbors (every other surviving node's resources unchanged), the node
and all its incident edges are gone afterwards, and exactly one removal
action carrying the node and its resource value is appended before the
loop continues with the rest of the list.  -/
theorem C8_damaged_node_processing (g : MGraph) (node : ℕ) (rest : List ℕ)
    (hwf : WF g) :
    (node ∉ g.nodes →
      healStep g node = (g, none) ∧
      removePhase g (node :: rest) = removePhase g rest) ∧
    (node ∈ g.nodes → neighbors g node ≠ [] →
      (healStep g node).2 =
        some (HealAction.removed node (getRes g node)) ∧
      node ∉ (healStep g node).1.nodes ∧
      (∀ e ∈ (healStep g node).1.edges, e.1 ≠ node ∧ e.2 ≠ node) ∧
      (∀ m ∈ neighbors g node,
        getRes (healStep g node).1 m =
          getRes g m + getRes g node / (neighbors g node).length) ∧
      (∀ m, m ∉ neighbors g node → m ≠ node →
        getRes (healStep g node).1 m = getRes g m) ∧
      removePhase g (node :: rest) =
        ((removePhase (healStep g node).1 rest).1,
          HealAction.removed node (getRes g node) ::
            (removePhase (healStep g node).1 rest).2)) := by
  constructor
  · intro habs
    have h1 : healStep g node = (g, none) := by
      simp [healStep, habs]
    refine ⟨h1, ?_⟩
    show (let p := healStep g node
          let q := removePhase p.1 rest
          (q.1, p.2.toList ++ q.2)) = removePhase g rest
    rw [h1]
    simp
  · intro hmem hnb
    have hstep : healStep g node =
        (removeNode
          ((neighbors g node).foldl
            (fun h nb => setRes h nb
              (getRes h nb + getRes g node / (neighbors g node).length)) g)
          node,
          some (HealAction.removed node (getRes g node))) := by
      have hempty : (neighbors g node).isEmpty = false := by
        cases hN : neighbors g node with
        | nil => exact absurd hN hnb
        | cons a l => rfl
      simp only [healStep, if_pos hmem, hempty, Bool.false_eq_true, if_false]
    have hred := getRes_redistribute
      (getRes g node / (neighbors g node).length) (neighbors g node) g
      (nodup_neighbors hwf node)
    refine ⟨by rw [hstep], ?_, ?_, ?_, ?_, ?_⟩
    · rw [hstep]
      exact node_not_mem_removeNode _ node
    · rw [hstep]
      exact edges_removeNode_not_incident _ node
    · intro m hm
      have hmn : m ≠ node := fun h => not_mem_neighbors_self hwf node (h ▸ hm)
      rw [hstep]
      show getRes (removeNode _ node) m = _
      rw [getRes_removeNode hmn]
      exact hred.1 m hm
    · intro m hm hmn
      rw [hstep]
      show getRes (removeNode _ node) m = _
      rw [getRes_removeNode hmn]
      exact hred.2 m hm
    · show (let p := healStep g node
            let q := removePhase p.1 rest
            (q.1, p.2.toList ++ q.2)) = _
      rw [hstep]
      simp

/-- C8 witness: the spec's own healing scenario — node 1 holds 30 and
has neighbors 2 and 3; each gains 30/2 = 15 on top of its 5.  -/
theorem C8_damaged_node_processing_witness :
    (1 ∈ healG.nodes) ∧ neighbors healG 1 = [2, 3] ∧
      getRes (healStep healG 1).1 2 = 20 ∧
      getRes (healStep healG 1).1 3 = 20 ∧
      1 ∉ (healStep healG 1).1.nodes := by
  have h := (C8_damaged_node_processing healG 1 [] (by decide)).2
    (by decide) (by decide)
  refine ⟨by decide, by decide, ?_, ?_, h.2.1⟩
  · rw [h.2.2.2.1 2 (by decide)]
    with_unfolding_all decide
  · rw [h.2.2.2.1 3 (by decide)]
    with_unfolding_all decide

/-- C10.  A present damaged node with no neighbors is removed without
redistribution: an action reporting its resource value `R` is still
appended, every other node's resources are unchanged, and the total of
all nodes' resources drops by exactly `R`.  -/
theorem C10_isolated_damaged_node (g : MGraph) (node : ℕ) (hwf : WF g)
    (hmem : node ∈ g.nodes) (hnb : neighbors g node = []) :
    (healStep g node).2 =
      some (HealAction.removed node (getRes g node)) ∧
    node ∉ (healStep g node).1.nodes ∧
    (∀ m, m ≠ node → getRes (healStep g node).1 m = getRes g m) ∧
    totalRes (healStep g node).1 = totalRes g - getRes g node := by
  have hstep : healStep g node =
      (removeNode g node, some (HealAction.removed node (getRes g node))) := by
    have hempty : (neighbors g node).isEmpty = true := by rw [hnb]; rfl
    simp only [healStep, if_pos hmem, hempty, if_true]
  have hother : ∀ m, m ≠ node → getRes (removeNode g node) m = getRes g m :=
    fun m hm => getRes_removeNode hm
  refine ⟨by rw [hstep], by rw [hstep]; exact node_not_mem_removeNode _ node,
    by rw [hstep]; exact hother, ?_⟩
  rw [hstep]
  show totalRes (removeNode g node) = _
  have hperm : g.nodes.Perm (node :: g.nodes.erase node) :=
    List.perm_cons_erase hmem
  have herase : g.nodes.erase node = g.nodes.filter (fun m => m != node) :=
    List.Nodup.erase_eq_filter hwf.1 node
  have hmapsum : totalRes g =
      getRes g node + ((g.nodes.filter (fun m => m != node)).map (getRes g)).sum := by
    unfold totalRes
    rw [List.Perm.sum_eq (hperm.map (getRes g))]
    rw [List.map_cons, List.sum_cons, herase]
  have hmeq : ((g.nodes.filter (fun m => m != node)).map
      (getRes (removeNode g node))).sum =
      ((g.nodes.filter (fun m => m != node)).map (getRes g)).sum := by
    congr 1
    refine List.map_congr_left ?_
    intro m hm
    rcases List.mem_filter.1 hm with ⟨_, hcond⟩
    exact hother m (by simpa using hcond)
  show ((g.nodes.filter (fun m => m != node)).map
      (getRes (removeNode g node))).sum = _
  rw [hmeq, hmapsum]
  ring

/-- C10 witness: node 1 of `isoG` holds 7 and has no neighbors; healing
drops the total from 11 to 4.  -/
theorem C10_isolated_damaged_node_witness :
    (1 ∈ isoG.nodes) ∧ neighbors isoG 1 = [] ∧
      totalRes isoG = 11 ∧ totalRes (healStep isoG 1).1 = 4 := by
  have h := (C10_isolated_damaged_node isoG 1 (by decide) (by decide)
    (by decide)).2.2.2
  refine ⟨by decide, by decide, by with_unfolding_all decide, ?_⟩
  rw [h]
  with_unfolding_all decide

/-! ### Healing: connectivity restoration (C9) -/

theorem hasEdge_symm {g : MGraph} {u v : ℕ} :
    hasEdge g u v = true ↔ hasEdge g v u = true := by
  unfold hasEdge
  constructor <;>
  · intro h
    rcases List.any_eq_true.1 h with ⟨e, hm, hc⟩
    refine List.any_eq_true.2 ⟨e, hm, ?_⟩
    simp only [Bool.or_eq_true, Bool.and_eq_true] at hc ⊢
    tauto

theorem hasEdge_mono {g h : MGraph} (hsub : g.edges ⊆ h.edges) {u v : ℕ}
    (he : hasEdge g u v = true) : hasEdge h u v = true := by
  unfold hasEdge at he ⊢
  rcases List.any_eq_true.1 he with ⟨e, hmem, hcond⟩
  exact List.any_eq_true.2 ⟨e, hsub hmem, hcond⟩

theorem reachG_symm {g : MGraph} {a b : ℕ} (h : ReachG g a b) :
    ReachG g b a :=
  Relation.ReflTransGen.symmetric (fun _ _ hxy => hasEdge_symm.1 hxy) h

theorem reachG_mono {g h : MGraph} (hsub : g.edges ⊆ h.edges) {a b : ℕ}
    (hr : ReachG g a b) : ReachG h a b :=
  Relation.ReflTransGen.mono (fun _ _ hxy => hasEdge_mono hsub hxy) hr

theorem expand_superset (g : MGraph) (s : List ℕ) : s ⊆ expand g s :=
  List.subset_append_left _ _

theorem compOf_mem_self (g : MGraph) (n : ℕ) : n ∈ compOf g n := by
  unfold compOf
  generalize g.nodes.length = j
  induction j with
  | zero => exact List.mem_singleton.2 rfl
  | succ j ih =>
    rw [Function.iterate_succ_apply']
    exact expand_superset g _ ih

theorem compOf_subset_nodes {g : MGraph} {n : ℕ} (hn : n ∈ g.nodes) :
    ∀ m ∈ compOf g n, m ∈ g.nodes := by
  unfold compOf
  generalize g.nodes.length = j
  induction j with
  | zero =>
    intro m hm
    rw [List.mem_singleton.1 hm]
    exact hn
  | succ j ih =>
    rw [Function.iterate_succ_apply']
    intro m hm
    rcases List.mem_append.1 hm with hm | hm
    · exact ih m hm
    · exact (List.mem_filter.1 hm).1

theorem expand_reach {g : MGraph} {n : ℕ} {s : List ℕ}
    (h : ∀ m ∈ s, ReachG g n m) : ∀ m ∈ expand g s, ReachG g n m := by
  intro m hm
  rcases List.mem_append.1 hm with hm | hm
  · exact h m hm
  · rcases List.mem_filter.1 hm with ⟨_, hcond⟩
    have hany : s.any (fun a => hasEdge g a m) = true := by
      simp only [Bool.and_eq_true] at hcond
      exact hcond.2
    rcases List.any_eq_true.1 hany with ⟨a, ha, hedge⟩
    exact Relation.ReflTransGen.tail (h a ha) hedge

theorem compOf_reach (g : MGraph) (n : ℕ) :
    ∀ m ∈ compOf g n, ReachG g n m := by
  unfold compOf
  generalize g.nodes.length = j
  induction j with
  | zero =>
    intro m hm
    rw [List.mem_singleton.1 hm]
    exact Relation.ReflTransGen.refl
  | succ j ih =>
    rw [Function.iterate_succ_apply']
    exact expand_reach ih

theorem compOf_mutual_reach (g : MGraph) (n : ℕ) :
    ∀ a ∈ compOf g n, ∀ b ∈ compOf g n, ReachG g a b := by
  intro a ha b hb
  exact Relation.ReflTransGen.trans (reachG_symm (compOf_reach g n a ha))
    (compOf_reach g n b hb)

theorem components_sound (g : MGraph) :
    ∀ (l seen : List ℕ), ∀ c ∈ componentsAux g l seen, ∃ n ∈ l, c = compOf g n := by
  intro l
  induction l with
  | nil => intro seen c hc; cases hc
  | cons n rest ih =>
    intro seen c hc
    by_cases hns : n ∈ seen
    · rw [componentsAux, if_pos hns] at hc
      rcases ih seen c hc with ⟨m, hm, hcm⟩
      exact ⟨m, List.mem_cons_of_mem _ hm, hcm⟩
    · rw [componentsAux, if_neg hns] at hc
      rcases List.mem_cons.1 hc with hc | hc
      · exact ⟨n, List.mem_cons_self n rest, hc⟩
      · rcases ih _ c hc with ⟨m, hm, hcm⟩
        exact ⟨m, List.mem_cons_of_mem _ hm, hcm⟩

theorem components_cover (g : MGraph) :
    ∀ (l seen : List ℕ) (m : ℕ), m ∈ l →
      m ∈ seen ∨ ∃ c ∈ componentsAux g l seen, m ∈ c := by
  intro l
  induction l with
  | nil => intro seen m hm; cases hm
  | cons n rest ih =>
    intro seen m hm
    by_cases hns : n ∈ seen
    · rw [componentsAux, if_pos hns]
      rcases List.mem_cons.1 hm with rfl | hm'
      · exact Or.inl hns
      · exact ih seen m hm'
    · rw [componentsAux, if_neg hns]
      rcases List.mem_cons.1 hm with rfl | hm'
      · exact Or.inr ⟨compOf g m, List.mem_cons_self _ _, compOf_mem_self g m⟩
      · rcases ih (seen ++ compOf g n) m hm' with hseen | ⟨c, hc, hmc⟩
        · rcases List.mem_append.1 hseen with hs | hcomp
          · exact Or.inl hs
          · exact Or.inr ⟨compOf g n, List.mem_cons_self _ _, hcomp⟩
        · exact Or.inr ⟨c, List.mem_cons_of_mem _ hc, hmc⟩

/-- Every listed connected component is nonempty, consists of graph
nodes, and is mutually reachable inside `g`.  -/
theorem connected_components_props (g : MGraph) :
    ∀ c ∈ connected_components g,
      c ≠ [] ∧ (∀ m ∈ c, m ∈ g.nodes) ∧
        ∀ a ∈ c, ∀ b ∈ c, ReachG g a b := by
  intro c hc
  rcases components_sound g g.nodes [] c hc with ⟨n, hn, rfl⟩
  exact ⟨List.ne_nil_of_mem (compOf_mem_self g n), compOf_subset_nodes hn,
    compOf_mutual_reach g n⟩

theorem connected_components_cover (g : MGraph) :
    ∀ m ∈ g.nodes, ∃ c ∈ connected_components g, m ∈ c := by
  intro m hm
  rcases components_cover g g.nodes [] m hm with h | h
  · cases h
  · exact h

theorem addEdge_edges_subset (g : MGraph) (u v : ℕ) (hf : ℚ) :
    g.edges ⊆ (addEdge g u v hf).edges := by
  intro x hx
  simp only [addEdge]
  split
  · exact hx
  · exact List.mem_append_left _ hx

theorem addEdge_nodes_of_mem {g : MGraph} {u v : ℕ} (hu : u ∈ g.nodes)
    (hv : v ∈ g.nodes) (hf : ℚ) : (addEdge g u v hf).nodes = g.nodes := by
  simp only [addEdge, if_pos hu, if_pos hv]

theorem hasEdge_addEdge (g : MGraph) (u v : ℕ) (hf : ℚ) :
    hasEdge (addEdge g u v hf) u v = true := by
  unfold hasEdge addEdge
  simp only []
  split <;> rename_i hcase
  · exact hcase
  · refine List.any_eq_true.2 ⟨(u, v), List.mem_append_right _ ?_, ?_⟩
    · exact List.mem_singleton.2 rfl
    · simp

theorem healChain_edges_subset (hf : ℚ) (rng : ℕ → List ℕ → ℕ) :
    ∀ (comps : List (List ℕ)) (g : MGraph) (k : ℕ),
      g.edges ⊆ (healChain hf rng g comps k).1.edges := by
  intro comps
  induction comps with
  | nil => intro g k x hx; exact hx
  | cons c1 tail ih =>
    intro g k
    cases tail with
    | nil => intro x hx; exact hx
    | cons c2 rest =>
      intro x hx
      show x ∈ (healChain hf rng
        (addEdge g (rng k c1) (rng (k + 1) c2) hf) (c2 :: rest) (k + 2)).1.edges
      exact ih (addEdge g (rng k c1) (rng (k + 1) c2) hf) (k + 2)
        (addEdge_edges_subset g _ _ hf hx)

theorem healChain_nodes (hf : ℚ) (rng : ℕ → List ℕ → ℕ)
    (hrng : ∀ k l, l ≠ [] → rng k l ∈ l) :
    ∀ (comps : List (List ℕ)) (g : MGraph) (k : ℕ),
      (∀ c ∈ comps, c ≠ [] ∧ ∀ m ∈ c, m ∈ g.nodes) →
      (healChain hf rng g comps k).1.nodes = g.nodes := by
  intro comps
  induction comps with
  | nil => intro g k _; rfl
  | cons c1 tail ih =>
    intro g k hcomps
    cases tail with
    | nil => rfl
    | cons c2 rest =>
      have hc1 := hcomps c1 (List.mem_cons_self _ _)
      have hc2 := hcomps c2 (List.mem_cons_of_mem _ (List.mem_cons_self _ _))
      have hu : rng k c1 ∈ g.nodes := hc1.2 _ (hrng k c1 hc1.1)
      have hv : rng (k + 1) c2 ∈ g.nodes := hc2.2 _ (hrng (k + 1) c2 hc2.1)
      have hnodes := addEdge_nodes_of_mem hu hv hf
      show (healChain hf rng
        (addEdge g (rng k c1) (rng (k + 1) c2) hf) (c2 :: rest) (k + 2)).1.nodes = _
      rw [ih (addEdge g (rng k c1) (rng (k + 1) c2) hf) (k + 2) ?_, hnodes]
      intro c hc
      refine ⟨(hcomps c (List.mem_cons_of_mem _ hc)).1, ?_⟩
      intro m hm
      rw [hnodes]
      exact (hcomps c (List.mem_cons_of_mem _ hc)).2 m hm

/-- Chaining consecutive components with one healing edge each merges
everything the components cover into a single connected part.  -/
theorem healChain_reach (hf : ℚ) (rng : ℕ → List ℕ → ℕ)
    (hrng : ∀ k l, l ≠ [] → rng k l ∈ l) :
    ∀ (comps : List (List ℕ)) (g : MGraph) (k : ℕ),
      (∀ c ∈ comps, c ≠ [] ∧ ∀ a ∈ c, ∀ b ∈ c, ReachG g a b) →
      ∀ a b, (∃ c ∈ comps, a ∈ c) → (∃ c ∈ comps, b ∈ c) →
        ReachG (healChain hf rng g comps k).1 a b := by
  intro comps
  induction comps with
  | nil =>
    intro g k _ a b ha _
    rcases ha with ⟨c, hc, _⟩
    cases hc
  | cons c1 tail ih =>
    intro g k hcomps a b ha hb
    cases tail with
    | nil =>
      rcases ha with ⟨ca, hca, hac⟩
      rcases hb with ⟨cb, hcb, hbc⟩
      rw [List.mem_singleton.1 hca] at hac
      rw [List.mem_singleton.1 hcb] at hbc
      show ReachG g a b
      exact (hcomps c1 (List.mem_cons_self _ _)).2 a hac b hbc
    | cons c2 rest =>
      have hc1 := hcomps c1 (List.mem_cons_self _ _)
      have hc2 := hcomps c2 (List.mem_cons_of_mem _ (List.mem_cons_self _ _))
      set u := rng k c1 with hu_def
      set v := rng (k + 1) c2 with hv_def
      set g1 := addEdge g u v hf with hg1_def
      have hsub1 : g.edges ⊆ g1.edges := addEdge_edges_subset g u v hf
      have hsub2 : g1.edges ⊆ (healChain hf rng g1 (c2 :: rest) (k + 2)).1.edges :=
        healChain_edges_subset hf rng (c2 :: rest) g1 (k + 2)
      have hsub : g.edges ⊆ (healChain hf rng g1 (c2 :: rest) (k + 2)).1.edges :=
        fun x hx => hsub2 (hsub1 hx)
      have hu : u ∈ c1 := hrng k c1 hc1.1
      have hv : v ∈ c2 := hrng (k + 1) c2 hc2.1
      have hcomps1 : ∀ c ∈ c2 :: rest, c ≠ [] ∧
          ∀ x ∈ c, ∀ y ∈ c, ReachG g1 x y := by
        intro c hc
        refine ⟨(hcomps c (List.mem_cons_of_mem _ hc)).1, ?_⟩
        intro x hx y hy
        exact reachG_mono hsub1 ((hcomps c (List.mem_cons_of_mem _ hc)).2 x hx y hy)
      have huv : ReachG (healChain hf rng g1 (c2 :: rest) (k + 2)).1 u v :=
        Relation.ReflTransGen.single (hasEdge_mono hsub2 (hasEdge_addEdge g u v hf))
      have hreach_c1 : ∀ x ∈ c1,
          ReachG (healChain hf rng g1 (c2 :: rest) (k + 2)).1 x u :=
        fun x hx => reachG_mono hsub (hc1.2 x hx u hu)
      have hreach_tail : ∀ x, (∃ c ∈ c2 :: rest, x ∈ c) →
          ReachG (healChain hf rng g1 (c2 :: rest) (k + 2)).1 v x :=
        fun x hx => ih g1 (k + 2) hcomps1 v x ⟨c2, List.mem_cons_self _ _, hv⟩ hx
      have hstep : ∀ x ∈ c1, ∀ y, (∃ c ∈ c2 :: rest, y ∈ c) →
          ReachG (healChain hf rng g1 (c2 :: rest) (k + 2)).1 x y := by
        intro x hx y hy
        exact Relation.ReflTransGen.trans (hreach_c1 x hx)
          (Relation.ReflTransGen.trans huv (hreach_tail y hy))
      show ReachG (healChain hf rng g1 (c2 :: rest) (k + 2)).1 a b
      rcases ha with ⟨ca, hca, hac⟩
      rcases hb with ⟨cb, hcb, hbc⟩
      rcases List.mem_cons.1 hca with rfl | hca' <;>
        rcases List.mem_cons.1 hcb with rfl | hcb'
      · exact reachG_mono hsub (hc1.2 a hac b hbc)
      · exact hstep a hac b ⟨cb, hcb', hbc⟩
      · exact reachG_symm (hstep b hbc a ⟨ca, hca', hac⟩)
      · exact ih g1 (k + 2) hcomps1 a b ⟨ca, hca', hac⟩ ⟨cb, hcb', hbc⟩

/-! WF is preserved by the removal phase of healing.  -/

theorem WF_removeNode {g : MGraph} (hwf : WF g) (node : ℕ) :
    WF (removeNode g node) := by
  refine ⟨List.Nodup.filter _ hwf.1, ?_, ?_⟩
  · intro e he
    rcases List.mem_filter.1 he with ⟨he', hcond⟩
    simp only [Bool.and_eq_true, bne_iff_ne, ne_eq] at hcond
    rcases hwf.2.1 e he' with ⟨hne, h1, h2⟩
    refine ⟨hne, ?_, ?_⟩ <;>
      · refine List.mem_filter.2 ⟨by assumption, ?_⟩
        simp only [bne_iff_ne, ne_eq]
        tauto
  · exact List.Pairwise.sublist (List.filter_sublist _) hwf.2.2

theorem foldl_setRes_nodes (f : MGraph → ℕ → ℚ) :
    ∀ (l : List ℕ) (g : MGraph),
      (l.foldl (fun h nb => setRes h nb (f h nb)) g).nodes = g.nodes := by
  intro l
  induction l with
  | nil => intro g; rfl
  | cons nb tl ih => intro g; exact ih (setRes g nb (f g nb))

theorem foldl_setRes_edges (f : MGraph → ℕ → ℚ) :
    ∀ (l : List ℕ) (g : MGraph),
      (l.foldl (fun h nb => setRes h nb (f h nb)) g).edges = g.edges := by
  intro l
  induction l with
  | nil => intro g; rfl
  | cons nb tl ih => intro g; exact ih (setRes g nb (f g nb))

theorem WF_healStep {g : MGraph} (hwf : WF g) (node : ℕ) :
    WF (healStep g node).1 := by
  unfold healStep
  split
  · simp only []
    split
    · exact WF_removeNode hwf node
    · refine WF_removeNode (WF_of_parts_eq ?_ ?_ hwf) node
      · exact foldl_setRes_nodes _ _ g
      · exact foldl_setRes_edges _ _ g
  · exact hwf

theorem WF_removePhase :
    ∀ (damaged : List ℕ) (g : MGraph), WF g → WF (removePhase g damaged).1 := by
  intro damaged
  induction damaged with
  | nil => intro g hwf; exact hwf
  | cons node rest ih =>
    intro g hwf
    show WF (removePhase (healStep g node).1 rest).1
    exact ih (healStep g node).1 (WF_healStep hwf node)

/-- The graph the healing routine returns is, in both branches, the
chain-completion of the post-removal graph (over zero or one component
the chaining loop does nothing).  -/
theorem self_healing_fst (g : MGraph) (damaged : List ℕ) (hf : ℚ)
    (rng : ℕ → List ℕ → ℕ) :
    (self_healing_response g damaged hf rng).1 =
      (healChain hf rng (removePhase g damaged).1
        (connected_components (removePhase g damaged).1) 0).1 := by
  simp only [self_healing_response]
  split <;> rename_i hlen
  · rfl
  · cases hc : connected_components (removePhase g damaged).1 with
    | nil => rfl
    | cons c tail =>
      cases tail with
      | nil => rfl
      | cons c2 rest =>
        rw [hc] at hlen
        simp at hlen

/-- C9.  On a well-formed graph, whenever the post-removal graph is
non-empty, `self_healing_response` leaves a graph in which any two
nodes are connected — i.e. exactly one connected component — for every
RNG that picks elements of the lists it is given (that is how
`random.choice` behaves).  -/
theorem C9_healing_connectivity (g : MGraph) (damaged : List ℕ) (hf : ℚ)
    (rng : ℕ → List ℕ → ℕ) (hwf : WF g)
    (hrng : ∀ k l, l ≠ [] → rng k l ∈ l)
    (hne : (removePhase g damaged).1.nodes ≠ []) :
    (self_healing_response g damaged hf rng).1.nodes ≠ [] ∧
      ∀ a ∈ (self_healing_response g damaged hf rng).1.nodes,
        ∀ b ∈ (self_healing_response g damaged hf rng).1.nodes,
          ReachG (self_healing_response g damaged hf rng).1 a b := by
  have hwf0 : WF (removePhase g damaged).1 := WF_removePhase damaged g hwf
  have hprops := connected_components_props (removePhase g damaged).1
  have hcover := connected_components_cover (removePhase g damaged).1
  have hnodes : (self_healing_response g damaged hf rng).1.nodes =
      (removePhase g damaged).1.nodes := by
    rw [self_healing_fst]
    refine healChain_nodes hf rng hrng _ _ 0 ?_
    intro c hc
    exact ⟨(hprops c hc).1, (hprops c hc).2.1⟩
  constructor
  · rw [hnodes]; exact hne
  · intro a ha b hb
    rw [hnodes] at ha hb
    rw [self_healing_fst]
    refine healChain_reach hf rng hrng _ _ 0 ?_ a b (hcover a ha) (hcover b hb)
    intro c hc
    exact ⟨(hprops c hc).1, (hprops c hc).2.2⟩

/-- C9 witness: damaging node 1 of `healG` splits {2} from {3}; the
healing response reconnects them, and the theorem yields reachability
between nodes 2 and 3 in the healed graph.  -/
theorem C9_healing_connectivity_witness :
    WF healG ∧ (removePhase healG [1]).1.nodes = [2, 3] ∧
      ReachG (self_healing_response healG [1] (4 / 5) (fun _ l => l.headD 0)).1
        2 3 := by
  have hrng : ∀ (k : ℕ) (l : List ℕ), l ≠ [] → l.headD 0 ∈ l := by
    intro k l hl
    cases l with
    | nil => exact absurd rfl hl
    | cons x xs => exact List.mem_cons_self x xs
  have h := C9_healing_connectivity healG [1] (4 / 5) (fun _ l => l.headD 0)
    (by decide) hrng (by with_unfolding_all decide)
  refine ⟨by decide, by with_unfolding_all decide, ?_⟩
  refine h.2 2 ?_ 3 ?_ <;> with_unfolding_all decide

/-! ### Correctness of the shortest-path model (towards C5) -/

theorem mem_neighbors_iff {g : MGraph} {v u : ℕ} :
    u ∈ neighbors g v ↔ hasEdge g v u = true := by
  unfold neighbors hasEdge
  constructor
  · intro h
    rcases List.mem_filterMap.1 h with ⟨e, he, hψ⟩
    refine List.any_eq_true.2 ⟨e, he, ?_⟩
    simp only [Bool.or_eq_true, Bool.and_eq_true, beq_iff_eq]
    split at hψ
    · rename_i h1
      exact Or.inl ⟨h1, Option.some.inj hψ⟩
    · split at hψ
      · rename_i h1 h2
        exact Or.inr ⟨Option.some.inj hψ, h2⟩
      · cases hψ
  · intro h
    rcases List.any_eq_true.1 h with ⟨e, he, hc⟩
    simp only [Bool.or_eq_true, Bool.and_eq_true, beq_iff_eq] at hc
    refine List.mem_filterMap.2 ⟨e, he, ?_⟩
    rcases hc with ⟨h1, h2⟩ | ⟨h1, h2⟩
    · rw [if_pos h1, h2]
    · by_cases hv : e.1 = v
      · rw [if_pos hv]
        rw [h2, ← hv, h1]
      · rw [if_neg hv, if_pos h2, h1]

theorem walksFrom_sound {g : MGraph} {s : ℕ} :
    ∀ (L : ℕ) (w : List ℕ), w ∈ walksFrom g s L →
      w.length = L + 1 ∧ w.getLast? = some s ∧
        List.Chain' (fun a b => hasEdge g a b = true) w := by
  intro L
  induction L with
  | zero =>
    intro w hw
    rw [List.mem_singleton.1 hw]
    exact ⟨rfl, rfl, List.chain'_singleton s⟩
  | succ L ih =>
    intro w hw
    rw [walksFrom] at hw
    rcases List.mem_flatMap.1 hw with ⟨w', hw', hmem⟩
    cases w' with
    | nil => cases hmem
    | cons v tl =>
      rcases List.mem_map.1 hmem with ⟨u, hu, rfl⟩
      rcases ih (v :: tl) hw' with ⟨hlen, hlast, hchain⟩
      refine ⟨by simpa using hlen, ?_, ?_⟩
      · rw [List.getLast?_cons_cons]
        exact hlast
      · refine List.chain'_cons.2 ⟨?_, hchain⟩
        exact hasEdge_symm.1 (mem_neighbors_iff.1 hu)

theorem walksFrom_complete {g : MGraph} {s : ℕ} :
    ∀ (L : ℕ) (w : List ℕ), w.length = L + 1 → w.getLast? = some s →
      List.Chain' (fun a b => hasEdge g a b = true) w →
      w ∈ walksFrom g s L := by
  intro L
  induction L with
  | zero =>
    intro w hlen hlast _
    cases w with
    | nil => cases hlast
    | cons x tl =>
      cases tl with
      | nil =>
        have hx : x = s := by
          simpa using hlast
        rw [hx]
        exact List.mem_singleton.2 rfl
      | cons y tl2 => simp at hlen
  | succ L ih =>
    intro w hlen hlast hchain
    cases w with
    | nil => cases hlast
    | cons u w' =>
      cases w' with
      | nil => simp at hlen
      | cons v tl =>
        rcases List.chain'_cons.1 hchain with ⟨huv, hchain'⟩
        have hlast' : (v :: tl).getLast? = some s := by
          rw [List.getLast?_cons_cons] at hlast
          exact hlast
        have hw' : (v :: tl) ∈ walksFrom g s L :=
          ih (v :: tl) (by simpa using hlen) hlast' hchain'
        rw [walksFrom]
        refine List.mem_flatMap.2 ⟨v :: tl, hw', ?_⟩
        refine List.mem_map.2 ⟨u, ?_, rfl⟩
        exact mem_neighbors_iff.2 (hasEdge_symm.1 huv)

theorem chain'_reverse_of_chain' {g : MGraph} {l : List ℕ}
    (h : List.Chain' (fun a b => hasEdge g a b = true) l) :
    List.Chain' (fun a b => hasEdge g a b = true) l.reverse := by
  rw [List.chain'_reverse]
  exact List.Chain'.imp (fun a b hab => hasEdge_symm.1 hab) h

theorem findAtLevel_some {g : MGraph} {s t : ℕ} {L : ℕ} {p : List ℕ}
    (h : findAtLevel g s t L = some p) :
    IsWalkFromTo g s t p ∧ p.length = L + 1 := by
  unfold findAtLevel at h
  rcases Option.map_eq_some'.1 h with ⟨w, hfind, rfl⟩
  have hw : w ∈ walksFrom g s L := List.mem_of_find?_eq_some hfind
  have hpred := List.find?_some hfind
  have hhead : w.head? = some t := beq_iff_eq.1 hpred
  rcases walksFrom_sound L w hw with ⟨hlen, hlast, hchain⟩
  refine ⟨⟨?_, ?_, chain'_reverse_of_chain' hchain⟩, by simpa using hlen⟩
  · rw [List.head?_reverse]
    exact hlast
  · rw [List.getLast?_reverse]
    exact hhead

theorem findAtLevel_none {g : MGraph} {s t : ℕ} {L : ℕ}
    (h : findAtLevel g s t L = none) :
    ∀ q, IsWalkFromTo g s t q → q.length ≠ L + 1 := by
  intro q hq hlen
  rcases hq with ⟨hhead, hlast, hchain⟩
  have hw : q.reverse ∈ walksFrom g s L := by
    refine walksFrom_complete L q.reverse (by simpa using hlen) ?_
      (chain'_reverse_of_chain' hchain)
    rw [List.getLast?_reverse]
    exact hhead
  have hfind := Option.map_eq_none'.1 h
  have hnone := List.find?_eq_none.1 hfind q.reverse hw
  apply hnone
  have : q.reverse.head? = some t := by
    rw [List.head?_reverse]
    exact hlast
  rw [this]
  exact beq_self_eq_true (some t)

theorem spAux_some {g : MGraph} {s t : ℕ} :
    ∀ (fuel L : ℕ) (p : List ℕ), spAux g s t fuel L = some p →
      IsWalkFromTo g s t p ∧ L + 1 ≤ p.length ∧
        ∀ q, IsWalkFromTo g s t q → L + 1 ≤ q.length → p.length ≤ q.length := by
  intro fuel
  induction fuel with
  | zero => intro L p h; cases h
  | succ fuel ih =>
    intro L p h
    rw [spAux] at h
    cases hf : findAtLevel g s t L with
    | some p' =>
      rw [hf] at h
      cases h
      rcases findAtLevel_some hf with ⟨hwalk, hlen⟩
      exact ⟨hwalk, by omega, fun q _ hq => by omega⟩
    | none =>
      rw [hf] at h
      rcases ih (L + 1) p h with ⟨hwalk, hlen, hmin⟩
      refine ⟨hwalk, by omega, ?_⟩
      intro q hq hqlen
      have hne : q.length ≠ L + 1 := findAtLevel_none hf q hq
      exact hmin q hq (by omega)

theorem spAux_none {g : MGraph} {s t : ℕ} :
    ∀ (fuel L : ℕ), spAux g s t fuel L = none →
      ∀ j, j < fuel → findAtLevel g s t (L + j) = none := by
  intro fuel
  induction fuel with
  | zero => intro L _ j hj; omega
  | succ fuel ih =>
    intro L h j hj
    rw [spAux] at h
    cases hf : findAtLevel g s t L with
    | some p' => rw [hf] at h; cases h
    | none =>
      rw [hf] at h
      cases j with
      | zero => simpa using hf
      | succ j =>
        have := ih (L + 1) h j (by omega)
        have harith : L + 1 + j = L + (j + 1) := by omega
        rw [harith] at this
        exact this

theorem chain_getLast_reach {g : MGraph} :
    ∀ (q : List ℕ) (a : ℕ),
      List.Chain' (fun x y => hasEdge g x y = true) (a :: q) →
      ∀ b, (a :: q).getLast? = some b → ReachG g a b := by
  intro q
  induction q with
  | nil =>
    intro a _ b hb
    have hab : a = b := by simpa using hb
    rw [hab]
    exact Relation.ReflTransGen.refl
  | cons c tl ih =>
    intro a hchain b hb
    rcases List.chain'_cons.1 hchain with ⟨hac, hchain'⟩
    rw [List.getLast?_cons_cons] at hb
    exact Relation.ReflTransGen.head hac (ih c hchain' b hb)

theorem walk_reach {g : MGraph} {s t : ℕ} {q : List ℕ}
    (h : IsWalkFromTo g s t q) : ReachG g s t := by
  rcases h with ⟨hhead, hlast, hchain⟩
  cases q with
  | nil => cases hhead
  | cons a tl =>
    have ha : a = s := by simpa using hhead
    rw [← ha]
    exact chain_getLast_reach tl a hchain t hlast

theorem reach_walk {g : MGraph} {s t : ℕ} (h : ReachG g s t) :
    ∃ q, IsWalkFromTo g s t q := by
  induction h with
  | refl => exact ⟨[s], rfl, rfl, List.chain'_singleton s⟩
  | tail hsb hbc ih =>
    rename_i b c
    rcases ih with ⟨q, hhead, hlast, hchain⟩
    cases q with
    | nil => cases hhead
    | cons a tl =>
      refine ⟨(a :: tl) ++ [c], ?_, ?_, ?_⟩
      · simpa using hhead
      · exact List.getLast?_concat _
      · refine List.chain'_append.2 ⟨hchain, List.chain'_singleton c, ?_⟩
        intro x hx y hy
        have hxb : x = b := by
          rw [hlast] at hx
          exact (Option.mem_some_iff.1 hx).symm
        have hyc : y = c := Option.mem_some_iff.1 hy |>.symm
        rw [hxb, hyc]
        exact hbc

theorem dup_split {l : List ℕ} (h : ¬ l.Nodup) :
    ∃ (a : ℕ) (l₁ l₂ l₃ : List ℕ), l = l₁ ++ a :: (l₂ ++ a :: l₃) := by
  induction l with
  | nil => exact absurd List.nodup_nil h
  | cons x xs ih =>
    by_cases hx : x ∈ xs
    · rcases List.append_of_mem hx with ⟨l₂, l₃, hsplit⟩
      exact ⟨x, [], l₂, l₃, by rw [hsplit]; rfl⟩
    · have hxs : ¬ xs.Nodup := fun hnd => h (List.nodup_cons.2 ⟨hx, hnd⟩)
      rcases ih hxs with ⟨a, l₁, l₂, l₃, hsplit⟩
      exact ⟨a, x :: l₁, l₂, l₃, by rw [hsplit]; rfl⟩

theorem walk_cut {g : MGraph} {s t : ℕ} {l₁ l₂ l₃ : List ℕ} {a : ℕ}
    (h : IsWalkFromTo g s t (l₁ ++ a :: (l₂ ++ a :: l₃))) :
    IsWalkFromTo g s t (l₁ ++ a :: l₃) ∧
      (l₁ ++ a :: l₃).length < (l₁ ++ a :: (l₂ ++ a :: l₃)).length := by
  rcases h with ⟨hhead, hlast, hchain⟩
  have hassoc : l₁ ++ a :: (l₂ ++ a :: l₃) = (l₁ ++ a :: l₂) ++ (a :: l₃) := by
    simp
  rw [hassoc] at hchain hlast
  rcases List.chain'_append.1 hchain with ⟨hcl, hcr, hlink⟩
  rcases List.chain'_append.1 hcl with ⟨hcl1, _, hlink1⟩
  refine ⟨⟨?_, ?_, ?_⟩, ?_⟩
  · cases l₁ with
    | nil => simpa using hhead
    | cons x xs => simpa using hhead
  · rw [List.getLast?_append_of_ne_nil l₁ (by simp)]
    rw [List.getLast?_append_of_ne_nil (l₁ ++ a :: l₂) (by simp)] at hlast
    exact hlast
  · refine List.chain'_append.2 ⟨hcl1, hcr, ?_⟩
    intro x hx y hy
    refine hlink1 x hx y ?_
    simpa using hy
  · simp
    omega

theorem walk_shorten {g : MGraph} {s t : ℕ} :
    ∀ (N : ℕ) (q : List ℕ), q.length ≤ N → IsWalkFromTo g s t q →
      ∃ q', IsWalkFromTo g s t q' ∧ q'.Nodup ∧ q'.length ≤ q.length := by
  intro N
  induction N with
  | zero =>
    intro q hlen hq
    cases q with
    | nil => cases hq.1
    | cons x xs => simp at hlen
  | succ N ih =>
    intro q hlen hq
    by_cases hnd : q.Nodup
    · exact ⟨q, hq, hnd, le_refl _⟩
    · rcases dup_split hnd with ⟨a, l₁, l₂, l₃, rfl⟩
      rcases walk_cut hq with ⟨hq', hlt⟩
      rcases ih (l₁ ++ a :: l₃) (by omega) hq' with ⟨q', hw', hnd', hle'⟩
      exact ⟨q', hw', hnd', by omega⟩

theorem hasEdge_mem_nodes {g : MGraph} (hwf : WF g) {a b : ℕ}
    (h : hasEdge g a b = true) : b ∈ g.nodes := by
  unfold hasEdge at h
  rcases List.any_eq_true.1 h with ⟨e, he, hc⟩
  simp only [Bool.or_eq_true, Bool.and_eq_true, beq_iff_eq] at hc
  rcases hwf.2.1 e he with ⟨_, h1, h2⟩
  rcases hc with ⟨_, hb⟩ | ⟨hb, _⟩
  · rw [← hb]; exact h2
  · rw [← hb]; exact h1

theorem chain_mem_nodes {g : MGraph} (hwf : WF g) :
    ∀ (q : List ℕ) (a : ℕ), a ∈ g.nodes →
      List.Chain' (fun x y => hasEdge g x y = true) (a :: q) →
      ∀ v ∈ a :: q, v ∈ g.nodes := by
  intro q
  induction q with
  | nil =>
    intro a ha _ v hv
    rw [List.mem_singleton.1 hv]
    exact ha
  | cons c tl ih =>
    intro a ha hchain v hv
    rcases List.chain'_cons.1 hchain with ⟨hac, hchain'⟩
    have hc : c ∈ g.nodes := hasEdge_mem_nodes hwf hac
    rcases List.mem_cons.1 hv with rfl | hv'
    · exact ha
    · exact ih c hc hchain' v hv'

theorem walk_vertices_mem {g : MGraph} (hwf : WF g) {s t : ℕ}
    (hs : s ∈ g.nodes) {q : List ℕ} (hq : IsWalkFromTo g s t q) :
    ∀ v ∈ q, v ∈ g.nodes := by
  rcases hq with ⟨hhead, _, hchain⟩
  cases q with
  | nil => cases hhead
  | cons a tl =>
    have ha : a = s := by simpa using hhead
    rw [ha] at hchain ⊢
    exact chain_mem_nodes hwf tl s hs hchain

theorem nodup_length_le {q l : List ℕ} (hq : q.Nodup)
    (hsub : ∀ v ∈ q, v ∈ l) (hl : l.Nodup) : q.length ≤ l.length := by
  have h1 : q.toFinset.card = q.length := List.toFinset_card_of_nodup hq
  have h2 : l.toFinset.card = l.length := List.toFinset_card_of_nodup hl
  have hsubf : q.toFinset ⊆ l.toFinset := by
    intro x hx
    exact List.mem_toFinset.2 (hsub x (List.mem_toFinset.1 hx))
  have := Finset.card_le_card hsubf
  omega

theorem shortest_path_some_of_reach {g : MGraph} {s t : ℕ} (hwf : WF g)
    (hs : s ∈ g.nodes) (hr : ReachG g s t) :
    ∃ p, shortest_path g s t = some p := by
  cases hsp : shortest_path g s t with
  | some p => exact ⟨p, rfl⟩
  | none =>
    exfalso
    rcases reach_walk hr with ⟨q, hq⟩
    rcases walk_shorten q.length q (le_refl _) hq with ⟨q', hq', hnd, _⟩
    have hmem := walk_vertices_mem hwf hs hq'
    have hle : q'.length ≤ g.nodes.length := nodup_length_le hnd hmem hwf.1
    have hpos : 1 ≤ q'.length := by
      cases hq'l : q' with
      | nil => rw [hq'l] at hq'; cases hq'.1
      | cons x xs => simp
    have hnone := spAux_none (g.nodes.length + 1) 0 hsp (q'.length - 1) (by omega)
    have harith : 0 + (q'.length - 1) = q'.length - 1 := by omega
    rw [harith] at hnone
    exact findAtLevel_none hnone q' hq' (by omega)

theorem shortest_path_spec {g : MGraph} {s t : ℕ} {p : List ℕ}
    (h : shortest_path g s t = some p) :
    IsWalkFromTo g s t p ∧
      ∀ q, IsWalkFromTo g s t q → p.length ≤ q.length := by
  rcases spAux_some (g.nodes.length + 1) 0 p h with ⟨hwalk, _, hmin⟩
  refine ⟨hwalk, ?_⟩
  intro q hq
  refine hmin q hq ?_
  cases hql : q with
  | nil => rw [hql] at hq; cases hq.1
  | cons x xs => simp

/-! ### Pathfinding result structure (C5) -/

theorem altTrials_structure (g : MGraph) (start target : ℕ) (rng : ℕ → ℚ) :
    ∀ (n : ℕ) (ps : List (String × List ℕ)) (k : ℕ),
      ∃ suffix, altTrials g start target rng n ps k = ps ++ suffix ∧
        suffix.length ≤ n := by
  intro n
  induction n with
  | zero => intro ps k; exact ⟨[], by simp [altTrials], by simp⟩
  | succ n ih =>
    intro ps k
    rw [altTrials]
    cases hsp : shortest_path (perturbAll rng (graphCopy g) k ps).1 start target with
    | none =>
      rcases ih ps (perturbAll rng (graphCopy g) k ps).2 with ⟨suffix, heq, hle⟩
      exact ⟨suffix, heq, by omega⟩
    | some alt =>
      by_cases halt : alt ∈ ps.map Prod.snd
      · simp only [halt, if_true]
        rcases ih ps (perturbAll rng (graphCopy g) k ps).2 with ⟨suffix, heq, hle⟩
        exact ⟨suffix, heq, by omega⟩
      · simp only [halt, if_false]
        rcases ih (ps ++ [("alternative_" ++ toString ps.length, alt)])
          (perturbAll rng (graphCopy g) k ps).2 with ⟨suffix, heq, hle⟩
        refine ⟨("alternative_" ++ toString ps.length, alt) :: suffix, ?_, ?_⟩
        · rw [heq, List.append_assoc]
          rfl
        · simp
          omega

/-- C5.  For a well-formed graph and existing node keys: with no path
between `start` and `target` the pathfinding returns exactly the empty
sequence (no error — the embedding is a total function); with a path it
returns between 1 and 4 labelled entries, the first labelled
`"primary"` and holding a hop-count-shortest path (a walk from `start`
to `target` no longer than any other walk between them).  -/
theorem C5_pathfinding_contract (g : MGraph) (start target : ℕ)
    (rng : ℕ → ℚ) (hwf : WF g) (hs : start ∈ g.nodes)
    (ht : target ∈ g.nodes) :
    (¬ ReachG g start target →
      (hyphal_growth_pathfinding g start target rng).1 = []) ∧
    (ReachG g start target →
      1 ≤ (hyphal_growth_pathfinding g start target rng).1.length ∧
      (hyphal_growth_pathfinding g start target rng).1.length ≤ 4 ∧
      ∃ p, (hyphal_growth_pathfinding g start target rng).1.head? =
          some ("primary", p) ∧
        IsWalkFromTo g start target p ∧
        ∀ q, IsWalkFromTo g start target q → p.length ≤ q.length) := by
  cases hsp : shortest_path g start target with
  | none =>
    constructor
    · intro _
      simp [hyphal_growth_pathfinding, hsp]
    · intro hr
      exfalso
      rcases shortest_path_some_of_reach hwf hs hr with ⟨p, hp⟩
      rw [hsp] at hp
      cases hp
  | some p =>
    rcases shortest_path_spec hsp with ⟨hwalk, hmin⟩
    constructor
    · intro hnr
      exact absurd (walk_reach hwalk) hnr
    · intro _
      have hres : (hyphal_growth_pathfinding g start target rng).1 =
          altTrials g start target rng 3 [("primary", p)] 0 := by
        simp [hyphal_growth_pathfinding, hsp]
      rcases altTrials_structure g start target rng 3 [("primary", p)] 0
        with ⟨suffix, heq, hle⟩
      rw [hres, heq]
      refine ⟨by simp, by simp; omega, p, ?_, hwalk, hmin⟩
      rfl

/-- C5 witness: on `pathG`, nodes 1 and 4 are connected and the
contract applies.  -/
theorem C5_pathfinding_contract_witness :
    WF pathG ∧ ReachG pathG 1 4 ∧
      1 ≤ (hyphal_growth_pathfinding pathG 1 4 (fun _ => 1 / 2)).1.length ∧
      (hyphal_growth_pathfinding pathG 1 4 (fun _ => 1 / 2)).1.length ≤ 4 := by
  have h12 : hasEdge pathG 1 2 = true := by decide
  have h23 : hasEdge pathG 2 3 = true := by decide
  have h34 : hasEdge pathG 3 4 = true := by decide
  have hreach : ReachG pathG 1 4 :=
    Relation.ReflTransGen.head h12 (Relation.ReflTransGen.head h23
      (Relation.ReflTransGen.head h34 Relation.ReflTransGen.refl))
  have h := (C5_pathfinding_contract pathG 1 4 (fun _ => 1 / 2) (by decide)
    (by decide) (by decide)).2 hreach
  exact ⟨by decide, hreach, h.1, h.2.1⟩

end Myc
